import Mathlib

/-!
Verification of `decision_making_criterions.py`: classical decision-theory
selection criteria under uncertainty.  Matrices are embedded as lists of
rows over a linear ordered field (numpy float64 arithmetic idealized as
exact arithmetic); the NaN/infinity behavior of the frequency normalizer
is modelled separately on an extended number type `NpFloat`.
-/

namespace DecisionMaking

section FieldDefs

variable {α : Type} [LinearOrderedField α]

/-- Embedding of `np.argmin`: the index of the first occurrence of the
minimum value of the list (numpy returns the first occurrence on ties);
junk value 0 on the empty list, where numpy raises. -/
def argminList : List α → ℕ
  | [] => 0
  | x :: xs => if ∀ y ∈ xs, x ≤ y then 0 else argminList xs + 1

/-- Embedding of `np.argmax`: the index of the first occurrence of the
maximum value of the list; junk value 0 on the empty list. -/
def argmaxList : List α → ℕ
  | [] => 0
  | x :: xs => if ∀ y ∈ xs, y ≤ x then 0 else argmaxList xs + 1

/-- Embedding of `__find_best_alternative`: `np.argmin` of the scores when
`is_loss_matrix` holds, `np.argmax` of the scores otherwise. -/
def find_best_alternative (scores : List α) (is_loss_matrix : Bool) : ℕ :=
  if is_loss_matrix then argminList scores else argmaxList scores

/-- Maximum of a list (`np.max` over a row); junk value 0 on the empty
list, where numpy raises. -/
def listMax : List α → α
  | [] => 0
  | x :: xs => xs.foldl max x

/-- Minimum of a list (`np.min` over a row); junk value 0 on the empty
list. -/
def listMin : List α → α
  | [] => 0
  | x :: xs => xs.foldl min x

/-- Embedding of `np.dot` of two vectors. -/
def dot (v w : List α) : α := (List.zipWith (fun x y => x * y) v w).sum

/-- Embedding of `wald_criterion`: minimax (argmin of row maxima) in the
loss framing, maximin (argmax of row minima) in the profit framing. -/
def wald_criterion (alternatives : List (List α)) (is_loss_matrix : Bool) : ℕ :=
  if is_loss_matrix then argminList (alternatives.map listMax)
  else argmaxList (alternatives.map listMin)

/-- Number of scenario columns of the matrix (numpy shape `M`). -/
def nCols (alternatives : List (List α)) : ℕ := (alternatives.headD []).length

/-- Entry `j` of `np.min(alternatives, axis=0)`: the minimum of column `j`
(out-of-range positions contribute the `getD` default 0, irrelevant for
rectangular input with `j < nCols`). -/
def colMin (alternatives : List (List α)) (j : ℕ) : α :=
  listMin (alternatives.map fun row => row.getD j 0)

/-- Entry `j` of `np.max(alternatives, axis=0)`: the maximum of column `j`. -/
def colMax (alternatives : List (List α)) (j : ℕ) : α :=
  listMax (alternatives.map fun row => row.getD j 0)

/-- The vector `np.min(alternatives, axis=0)` of column minima. -/
def colMins (alternatives : List (List α)) : List α :=
  (List.range (nCols alternatives)).map (colMin alternatives)

/-- The vector `np.max(alternatives, axis=0)` of column maxima. -/
def colMaxs (alternatives : List (List α)) : List α :=
  (List.range (nCols alternatives)).map (colMax alternatives)

/-- The `regrets_matrix` built inside `savage_criterion`: the broadcast
difference `alternatives - np.min(alternatives, axis=0)` in the loss
framing, `np.max(alternatives, axis=0) - alternatives` in the profit
framing. -/
def savage_regrets (alternatives : List (List α)) (is_loss_matrix : Bool) :
    List (List α) :=
  if is_loss_matrix then
    alternatives.map fun row => List.zipWith (fun x m => x - m) row (colMins alternatives)
  else
    alternatives.map fun row => List.zipWith (fun m x => m - x) (colMaxs alternatives) row

/-- Embedding of `savage_criterion`: `wald_criterion` applied to the
regret matrix with its default `is_loss_matrix=True` in both branches. -/
def savage_criterion (alternatives : List (List α)) (is_loss_matrix : Bool) : ℕ :=
  wald_criterion (savage_regrets alternatives is_loss_matrix) true

/-- Embedding of `hurwitz_criterion`: convex combination of row maxima
(`upper_values`) and row minima (`lower_values`) with weight `alpha`,
then the generic selector. -/
def hurwitz_criterion (alternatives : List (List α)) (is_loss_matrix : Bool)
    (alpha : α) : ℕ :=
  let upper_values := alternatives.map listMax
  let lower_values := alternatives.map listMin
  let scores := List.zipWith (fun u w => (1 - alpha) * u + alpha * w) upper_values lower_values
  find_best_alternative scores is_loss_matrix

/-- Embedding of `__frequencies_to_probabilities` restricted to finite
(NaN-free, infinity-free) inputs, which is how all the criteria call it:
on such inputs `np.nan_to_num` is the identity and the `np.isnan` test is
false, leaving the negativity and non-positive-sum checks.  `none` models
the raised `ValueError`.  The full NaN/infinity behavior is modelled by
`np_frequencies_to_probabilities` below. -/
def frequencies_to_probabilities (frequencies : List α) : Option (List α) :=
  if (∃ x ∈ frequencies, x < 0) ∨ frequencies.sum ≤ 0 then none
  else some (frequencies.map fun x => x / frequencies.sum)

/-- Embedding of `std_criterion`: argmin of the per-alternative variance
`np.dot(alternatives ** 2, p) - np.dot(alternatives, p) ** 2`, written
row-wise (numpy's matrix ops are row-wise here). -/
def std_criterion (alternatives : List (List α)) (frequencies : List α) :
    Option ℕ :=
  (frequencies_to_probabilities frequencies).map fun probabilities =>
    argminList (alternatives.map fun row =>
      dot (row.map fun x => x ^ 2) probabilities - (dot row probabilities) ^ 2)

/-- Embedding of `variation_coefficient_criterion`; `np.sqrt` is passed as
the explicit function argument `sqrtFn` (the real development instantiates
it with `Real.sqrt`). -/
def variation_coefficient_criterion (sqrtFn : α → α)
    (alternatives : List (List α)) (frequencies : List α) : Option ℕ :=
  (frequencies_to_probabilities frequencies).map fun probabilities =>
    argminList (alternatives.map fun row =>
      sqrtFn (dot (row.map fun x => x ^ 2) probabilities - (dot row probabilities) ^ 2) /
        |dot row probabilities|)

/-- Embedding of `linear_combination_mean_std_criterion`; `np.sqrt` is the
explicit argument `sqrtFn`, and `beta = None` is the `Option.none` case,
resolved to `1 - alpha` exactly as in the source. -/
def linear_combination_mean_std_criterion (sqrtFn : α → α)
    (alternatives : List (List α)) (frequencies : List α)
    (is_loss_matrix : Bool) (alpha : α) (beta : Option α) : Option ℕ :=
  (frequencies_to_probabilities frequencies).map fun probabilities =>
    let b := beta.getD (1 - alpha)
    if is_loss_matrix then
      argminList (alternatives.map fun row =>
        alpha * dot row probabilities +
          b * sqrtFn (dot (row.map fun x => x ^ 2) probabilities - (dot row probabilities) ^ 2))
    else
      argmaxList (alternatives.map fun row =>
        alpha * dot row probabilities -
          b * sqrtFn (dot (row.map fun x => x ^ 2) probabilities - (dot row probabilities) ^ 2))

end FieldDefs

section NpFloatModel

/-- Idealized model of a numpy float64 value: NaN, the two infinities, or
a finite value carried exactly as a rational (rounding is not modelled;
none of the verified properties depend on it). -/
inductive NpFloat : Type
  | nan : NpFloat
  | posInf : NpFloat
  | negInf : NpFloat
  | finite : ℚ → NpFloat
  deriving DecidableEq

/-- The largest finite float64, `np.finfo(np.float64).max`, that is
`(2^53 - 1) * 2^971`, written with a shift (computed in ℕ and cast) so
that it evaluates by the fast natural-number arithmetic. -/
def maxFloat : ℚ := ((2 ^ 53 - 1) <<< 971 : ℕ)

/-- Embedding of `np.nan_to_num(x, nan=default)`: NaN becomes `default`,
positive infinity becomes the largest finite float, negative infinity its
negation, finite values are unchanged. -/
def nan_to_num (default : ℚ) : NpFloat → NpFloat
  | .nan => .finite default
  | .posInf => .finite maxFloat
  | .negInf => .finite (-maxFloat)
  | .finite q => .finite q

/-- Embedding of `np.isnan` on one value. -/
def NpFloat.isnan : NpFloat → Bool
  | .nan => true
  | _ => false

/-- IEEE comparison `x < 0` (false on NaN). -/
def NpFloat.ltZero : NpFloat → Bool
  | .negInf => true
  | .finite q => decide (q < 0)
  | _ => false

/-- IEEE comparison `x ≤ 0` (false on NaN). -/
def NpFloat.leZero : NpFloat → Bool
  | .negInf => true
  | .finite q => decide (q ≤ 0)
  | _ => false

/-- Whether the value is finite (neither NaN nor an infinity). -/
def NpFloat.isFinite : NpFloat → Bool
  | .finite _ => true
  | _ => false

/-- IEEE addition on the model: NaN is absorbing, opposite infinities
give NaN, an infinity otherwise dominates, finite values add exactly. -/
def NpFloat.add : NpFloat → NpFloat → NpFloat
  | .nan, _ => .nan
  | _, .nan => .nan
  | .posInf, .negInf => .nan
  | .negInf, .posInf => .nan
  | .posInf, _ => .posInf
  | _, .posInf => .posInf
  | .negInf, _ => .negInf
  | _, .negInf => .negInf
  | .finite a, .finite b => .finite (a + b)

/-- Embedding of `np.sum` over a vector of floats. -/
def npSum (l : List NpFloat) : NpFloat :=
  l.foldr NpFloat.add (.finite 0)

/-- IEEE division on the model (signed zeros collapsed to 0): NaN is
absorbing, inf/inf is NaN, finite/inf is 0, inf/finite is a signed
infinity, finite/0 is NaN or a signed infinity, and otherwise exact
rational division. -/
def NpFloat.div : NpFloat → NpFloat → NpFloat
  | .nan, _ => .nan
  | _, .nan => .nan
  | .posInf, .posInf => .nan
  | .posInf, .negInf => .nan
  | .negInf, .posInf => .nan
  | .negInf, .negInf => .nan
  | .posInf, .finite b => if 0 ≤ b then .posInf else .negInf
  | .negInf, .finite b => if 0 ≤ b then .negInf else .posInf
  | .finite _, .posInf => .finite 0
  | .finite _, .negInf => .finite 0
  | .finite a, .finite b =>
      if b = 0 then (if a = 0 then .nan else if 0 < a then .posInf else .negInf)
      else .finite (a / b)

/-- Embedding of `__frequencies_to_probabilities` on the `NpFloat` model,
NaN and infinity handling included.  The `Except.error` payload models
the raised `ValueError`, whose message contains the original
(pre-substitution) `frequencies` argument. -/
def np_frequencies_to_probabilities (frequencies : List NpFloat) (default : ℚ) :
    Except (List NpFloat) (List NpFloat) :=
  let probabilities := frequencies.map (nan_to_num default)
  if probabilities.any NpFloat.isnan || probabilities.any NpFloat.ltZero ||
      (npSum probabilities).leZero then
    Except.error frequencies
  else
    Except.ok (probabilities.map fun p => p.div (npSum probabilities))

/-- Whether an `Except` result models a raised exception. -/
def raisesError {ε σ : Type} : Except ε σ → Bool
  | .error _ => true
  | .ok _ => false

instance {ε σ : Type} [DecidableEq ε] [DecidableEq σ] : DecidableEq (Except ε σ) :=
  fun a b =>
    match a, b with
    | .error x, .error y =>
        if h : x = y then isTrue (by rw [h]) else
          isFalse (fun hh => h (by injection hh))
    | .error _, .ok _ => isFalse (fun hh => Except.noConfusion hh)
    | .ok _, .error _ => isFalse (fun hh => Except.noConfusion hh)
    | .ok x, .ok y =>
        if h : x = y then isTrue (by rw [h]) else
          isFalse (fun hh => h (by injection hh))

/-- Modelled from the spec: section 4.2 of the spec says the normalizer
shall "Replace each missing entry with `default`", the missing-value
marker being NaN; unlike the source's `np.nan_to_num`, this spec-side
substitution leaves infinities untouched, so an entry can "still" be
non-finite afterwards.  Used only to state the spec's reading of the
error condition, to be compared with `np_frequencies_to_probabilities`. -/
def spec_substitute (default : ℚ) : NpFloat → NpFloat
  | .nan => .finite default
  | x => x

end NpFloatModel

section SelectorLemmas

variable {α : Type} [LinearOrderedField α]

theorem foldl_min_le_init (xs : List α) (a : α) : xs.foldl min a ≤ a := by
  induction xs generalizing a with
  | nil => exact le_refl a
  | cons x xs ih =>
    rw [List.foldl_cons]
    exact le_trans (ih (min a x)) (min_le_left a x)

theorem foldl_min_le_mem (xs : List α) (a : α) : ∀ y ∈ xs, xs.foldl min a ≤ y := by
  induction xs generalizing a with
  | nil => simp
  | cons x xs ih =>
    intro y hy
    rw [List.foldl_cons]
    rcases List.mem_cons.1 hy with rfl | hy'
    · exact le_trans (foldl_min_le_init xs (min a y)) (min_le_right a y)
    · exact ih (min a x) y hy'

theorem foldl_min_mem (xs : List α) (a : α) :
    xs.foldl min a = a ∨ xs.foldl min a ∈ xs := by
  induction xs generalizing a with
  | nil => exact Or.inl rfl
  | cons x xs ih =>
    rw [List.foldl_cons]
    rcases ih (min a x) with h | h
    · rcases min_choice a x with h2 | h2
      · exact Or.inl (h.trans h2)
      · exact Or.inr (List.mem_cons.2 (Or.inl (h.trans h2)))
    · exact Or.inr (List.mem_cons_of_mem _ h)

theorem foldl_max_init_le (xs : List α) (a : α) : a ≤ xs.foldl max a := by
  induction xs generalizing a with
  | nil => exact le_refl a
  | cons x xs ih =>
    rw [List.foldl_cons]
    exact le_trans (le_max_left a x) (ih (max a x))

theorem foldl_max_mem_le (xs : List α) (a : α) : ∀ y ∈ xs, y ≤ xs.foldl max a := by
  induction xs generalizing a with
  | nil => simp
  | cons x xs ih =>
    intro y hy
    rw [List.foldl_cons]
    rcases List.mem_cons.1 hy with rfl | hy'
    · exact le_trans (le_max_right a y) (foldl_max_init_le xs (max a y))
    · exact ih (max a x) y hy'

theorem foldl_max_mem (xs : List α) (a : α) :
    xs.foldl max a = a ∨ xs.foldl max a ∈ xs := by
  induction xs generalizing a with
  | nil => exact Or.inl rfl
  | cons x xs ih =>
    rw [List.foldl_cons]
    rcases ih (max a x) with h | h
    · rcases max_choice a x with h2 | h2
      · exact Or.inl (h.trans h2)
      · exact Or.inr (List.mem_cons.2 (Or.inl (h.trans h2)))
    · exact Or.inr (List.mem_cons_of_mem _ h)

theorem listMin_le (l : List α) : ∀ y ∈ l, listMin l ≤ y := by
  cases l with
  | nil => simp
  | cons x xs =>
    intro y hy
    rcases List.mem_cons.1 hy with rfl | hy'
    · exact foldl_min_le_init xs y
    · exact foldl_min_le_mem xs x y hy'

theorem listMin_mem (l : List α) (h : l ≠ []) : listMin l ∈ l := by
  cases l with
  | nil => exact absurd rfl h
  | cons x xs =>
    rcases foldl_min_mem xs x with h2 | h2
    · rw [listMin, h2]; exact List.mem_cons_self x xs
    · exact List.mem_cons_of_mem _ h2

theorem le_listMax (l : List α) : ∀ y ∈ l, y ≤ listMax l := by
  cases l with
  | nil => simp
  | cons x xs =>
    intro y hy
    rcases List.mem_cons.1 hy with rfl | hy'
    · exact foldl_max_init_le xs y
    · exact foldl_max_mem_le xs x y hy'

theorem listMax_mem (l : List α) (h : l ≠ []) : listMax l ∈ l := by
  cases l with
  | nil => exact absurd rfl h
  | cons x xs =>
    rcases foldl_max_mem xs x with h2 | h2
    · rw [listMax, h2]; exact List.mem_cons_self x xs
    · exact List.mem_cons_of_mem _ h2

theorem argminList_lt_length (l : List α) (h : l ≠ []) :
    argminList l < l.length := by
  induction l with
  | nil => exact absurd rfl h
  | cons x xs ih =>
    simp only [argminList]
    by_cases hall : ∀ y ∈ xs, x ≤ y
    · rw [if_pos hall]; simp
    · rw [if_neg hall]
      have hne : xs ≠ [] := by
        intro hxs
        exact hall (by simp [hxs])
      simpa using Nat.succ_lt_succ (ih hne)

theorem getD_argminList_le (l : List α) : ∀ y ∈ l, l.getD (argminList l) 0 ≤ y := by
  induction l with
  | nil => simp
  | cons x xs ih =>
    intro y hy
    simp only [argminList]
    by_cases hall : ∀ y ∈ xs, x ≤ y
    · rw [if_pos hall, List.getD_cons_zero]
      rcases List.mem_cons.1 hy with rfl | hy'
      · exact le_refl y
      · exact hall y hy'
    · rw [if_neg hall, List.getD_cons_succ]
      push_neg at hall
      obtain ⟨z, hz, hzx⟩ := hall
      rcases List.mem_cons.1 hy with rfl | hy'
      · exact le_trans (ih z hz) (le_of_lt hzx)
      · exact ih y hy'

theorem getD_argminList_mem (l : List α) (h : l ≠ []) :
    l.getD (argminList l) 0 ∈ l := by
  induction l with
  | nil => exact absurd rfl h
  | cons x xs ih =>
    simp only [argminList]
    by_cases hall : ∀ y ∈ xs, x ≤ y
    · rw [if_pos hall, List.getD_cons_zero]
      exact List.mem_cons_self x xs
    · rw [if_neg hall, List.getD_cons_succ]
      have hne : xs ≠ [] := by
        intro hxs
        exact hall (by simp [hxs])
      exact List.mem_cons_of_mem _ (ih hne)

theorem getD_argminList_lt (l : List α) :
    ∀ j < argminList l, l.getD (argminList l) 0 < l.getD j 0 := by
  induction l with
  | nil => simp [argminList]
  | cons x xs ih =>
    intro j hj
    simp only [argminList] at hj ⊢
    by_cases hall : ∀ y ∈ xs, x ≤ y
    · rw [if_pos hall] at hj
      exact absurd hj (Nat.not_lt_zero j)
    · rw [if_neg hall] at hj ⊢
      rw [List.getD_cons_succ]
      push_neg at hall
      obtain ⟨z, hz, hzx⟩ := hall
      cases j with
      | zero =>
        rw [List.getD_cons_zero]
        exact lt_of_le_of_lt (getD_argminList_le xs z hz) hzx
      | succ k =>
        rw [List.getD_cons_succ]
        exact ih k (Nat.lt_of_succ_lt_succ hj)

theorem argmaxList_lt_length (l : List α) (h : l ≠ []) :
    argmaxList l < l.length := by
  induction l with
  | nil => exact absurd rfl h
  | cons x xs ih =>
    simp only [argmaxList]
    by_cases hall : ∀ y ∈ xs, y ≤ x
    · rw [if_pos hall]; simp
    · rw [if_neg hall]
      have hne : xs ≠ [] := by
        intro hxs
        exact hall (by simp [hxs])
      simpa using Nat.succ_lt_succ (ih hne)

theorem le_getD_argmaxList (l : List α) : ∀ y ∈ l, y ≤ l.getD (argmaxList l) 0 := by
  induction l with
  | nil => simp
  | cons x xs ih =>
    intro y hy
    simp only [argmaxList]
    by_cases hall : ∀ y ∈ xs, y ≤ x
    · rw [if_pos hall, List.getD_cons_zero]
      rcases List.mem_cons.1 hy with rfl | hy'
      · exact le_refl y
      · exact hall y hy'
    · rw [if_neg hall, List.getD_cons_succ]
      push_neg at hall
      obtain ⟨z, hz, hzx⟩ := hall
      rcases List.mem_cons.1 hy with rfl | hy'
      · exact le_trans (le_of_lt hzx) (ih z hz)
      · exact ih y hy'

theorem getD_argmaxList_mem (l : List α) (h : l ≠ []) :
    l.getD (argmaxList l) 0 ∈ l := by
  induction l with
  | nil => exact absurd rfl h
  | cons x xs ih =>
    simp only [argmaxList]
    by_cases hall : ∀ y ∈ xs, y ≤ x
    · rw [if_pos hall, List.getD_cons_zero]
      exact List.mem_cons_self x xs
    · rw [if_neg hall, List.getD_cons_succ]
      have hne : xs ≠ [] := by
        intro hxs
        exact hall (by simp [hxs])
      exact List.mem_cons_of_mem _ (ih hne)

theorem getD_argmaxList_gt (l : List α) :
    ∀ j < argmaxList l, l.getD j 0 < l.getD (argmaxList l) 0 := by
  induction l with
  | nil => simp [argmaxList]
  | cons x xs ih =>
    intro j hj
    simp only [argmaxList] at hj ⊢
    by_cases hall : ∀ y ∈ xs, y ≤ x
    · rw [if_pos hall] at hj
      exact absurd hj (Nat.not_lt_zero j)
    · rw [if_neg hall] at hj ⊢
      rw [List.getD_cons_succ]
      push_neg at hall
      obtain ⟨z, hz, hzx⟩ := hall
      cases j with
      | zero =>
        rw [List.getD_cons_zero]
        exact lt_of_lt_of_le hzx (le_getD_argmaxList xs z hz)
      | succ k =>
        rw [List.getD_cons_succ]
        exact ih k (Nat.lt_of_succ_lt_succ hj)

theorem getD_argminList_eq_listMin (l : List α) (h : l ≠ []) :
    l.getD (argminList l) 0 = listMin l :=
  le_antisymm (getD_argminList_le l (listMin l) (listMin_mem l h))
    (listMin_le l _ (getD_argminList_mem l h))

theorem getD_argmaxList_eq_listMax (l : List α) (h : l ≠ []) :
    l.getD (argmaxList l) 0 = listMax l :=
  le_antisymm (le_listMax l _ (getD_argmaxList_mem l h))
    (le_getD_argmaxList l (listMax l) (listMax_mem l h))

end SelectorLemmas

section NormalizerLemmas

variable {α : Type} [LinearOrderedField α]

theorem sum_pos_of_valid (f : List α) (h0 : ∀ x ∈ f, 0 ≤ x)
    (h1 : ∃ x ∈ f, x ≠ 0) : 0 < f.sum := by
  induction f with
  | nil => simp at h1
  | cons x xs ih =>
    rw [List.sum_cons]
    obtain ⟨y, hy, hy0⟩ := h1
    rcases List.mem_cons.1 hy with rfl | hy'
    · have hx : 0 < y := lt_of_le_of_ne (h0 y hy) (Ne.symm hy0)
      have hxs : 0 ≤ xs.sum := List.sum_nonneg fun z hz => h0 z (List.mem_cons_of_mem _ hz)
      linarith
    · have hxs : 0 < xs.sum :=
        ih (fun z hz => h0 z (List.mem_cons_of_mem _ hz)) ⟨y, hy', hy0⟩
      have hx : 0 ≤ x := h0 x (List.mem_cons_self x xs)
      linarith

theorem sum_map_mulRight (f : List α) (r : α) :
    (f.map fun x => x * r).sum = f.sum * r := by
  induction f with
  | nil => simp
  | cons x xs ih => simp [ih, add_mul]

theorem sum_map_mulLeft (f : List α) (c : α) :
    (f.map fun x => c * x).sum = c * f.sum := by
  induction f with
  | nil => simp
  | cons x xs ih => simp [ih, mul_add]

theorem sum_map_div_self (f : List α) (hs : f.sum ≠ 0) :
    (f.map fun x => x / f.sum).sum = 1 := by
  have h : (f.map fun x => x / f.sum).sum = f.sum * (f.sum)⁻¹ := by
    simp only [div_eq_mul_inv]
    exact sum_map_mulRight f (f.sum)⁻¹
  rw [h, mul_inv_cancel₀ hs]

theorem frequencies_to_probabilities_eq_some (f : List α)
    (h0 : ∀ x ∈ f, 0 ≤ x) (h1 : ∃ x ∈ f, x ≠ 0) :
    frequencies_to_probabilities f = some (f.map fun x => x / f.sum) := by
  rw [frequencies_to_probabilities, if_neg]
  push_neg
  exact ⟨h0, sum_pos_of_valid f h0 h1⟩

theorem frequencies_to_probabilities_scale (f : List α) (c : α) (hc : 0 < c) :
    frequencies_to_probabilities (f.map fun x => c * x) =
      frequencies_to_probabilities f := by
  have hsum : (f.map fun x => c * x).sum = c * f.sum := sum_map_mulLeft f c
  have hneg : (∃ x ∈ f.map fun x => c * x, x < 0) ↔ ∃ x ∈ f, x < 0 := by
    simp only [List.mem_map]
    constructor
    · rintro ⟨y, ⟨x, hx, rfl⟩, hy⟩
      refine ⟨x, hx, ?_⟩
      by_contra hx0
      exact absurd (mul_nonneg (le_of_lt hc) (not_lt.1 hx0)) (not_le.2 hy)
    · rintro ⟨x, hx, hx0⟩
      exact ⟨c * x, ⟨x, hx, rfl⟩, mul_neg_of_pos_of_neg hc hx0⟩
  have hle : (f.map fun x => c * x).sum ≤ 0 ↔ f.sum ≤ 0 := by
    rw [hsum]
    constructor
    · intro h
      by_contra hs
      exact absurd (mul_pos hc (not_le.1 hs)) (not_lt.2 h)
    · intro h
      exact mul_nonpos_iff.2 (Or.inl ⟨le_of_lt hc, h⟩)
  by_cases h : (∃ x ∈ f, x < 0) ∨ f.sum ≤ 0
  · rw [frequencies_to_probabilities, frequencies_to_probabilities,
      if_pos (by rw [hneg, hle]; exact h), if_pos h]
  · rw [frequencies_to_probabilities, frequencies_to_probabilities,
      if_neg (by rw [hneg, hle]; exact h), if_neg h]
    rw [hsum, List.map_map]
    congr 1
    have hfun : ((fun x => x / (c * f.sum)) ∘ fun x => c * x) = fun x => x / f.sum := by
      funext x
      simp only [Function.comp_apply]
      exact mul_div_mul_left x f.sum (ne_of_gt hc)
    rw [hfun]

end NormalizerLemmas

section NpFloatLemmas

theorem nan_to_num_not_isnan (d : ℚ) (x : NpFloat) :
    (nan_to_num d x).isnan = false := by
  cases x <;> rfl

theorem map_nan_to_num_any_isnan (f : List NpFloat) (d : ℚ) :
    (f.map (nan_to_num d)).any NpFloat.isnan = false := by
  induction f with
  | nil => rfl
  | cons x xs ih => simp [ih, nan_to_num_not_isnan]

theorem np_raises_iff (f : List NpFloat) (d : ℚ) :
    raisesError (np_frequencies_to_probabilities f d) = true ↔
      ((f.map (nan_to_num d)).any NpFloat.ltZero = true ∨
        (npSum (f.map (nan_to_num d))).leZero = true) := by
  simp only [np_frequencies_to_probabilities, map_nan_to_num_any_isnan, Bool.false_or]
  by_cases h : (f.map (nan_to_num d)).any NpFloat.ltZero = true ∨
      (npSum (f.map (nan_to_num d))).leZero = true
  · rw [if_pos (by simpa [Bool.or_eq_true] using h)]
    simpa [raisesError] using h
  · rw [if_neg (by simpa [Bool.or_eq_true] using h)]
    simpa [raisesError] using h

theorem np_error_payload (f : List NpFloat) (d : ℚ)
    (h : raisesError (np_frequencies_to_probabilities f d) = true) :
    np_frequencies_to_probabilities f d = Except.error f := by
  have hc := (np_raises_iff f d).1 h
  simp only [np_frequencies_to_probabilities, map_nan_to_num_any_isnan, Bool.false_or]
  rw [if_pos (by simpa [Bool.or_eq_true] using hc)]

theorem np_ok_value (f : List NpFloat) (d : ℚ)
    (h : raisesError (np_frequencies_to_probabilities f d) = false) :
    np_frequencies_to_probabilities f d =
      Except.ok ((f.map (nan_to_num d)).map fun p =>
        p.div (npSum (f.map (nan_to_num d)))) := by
  have hc : ¬((f.map (nan_to_num d)).any NpFloat.ltZero = true ∨
      (npSum (f.map (nan_to_num d))).leZero = true) := by
    intro hcond
    rw [(np_raises_iff f d).2 hcond] at h
    exact absurd h (by simp)
  simp only [np_frequencies_to_probabilities, map_nan_to_num_any_isnan, Bool.false_or]
  rw [if_neg (by simpa [Bool.or_eq_true] using hc)]

end NpFloatLemmas

section IndexLemmas

variable {α : Type} [LinearOrderedField α]

theorem getD_map_of_lt {β γ : Type} (g : β → γ) (l : List β) (i : ℕ)
    (hi : i < l.length) (d : γ) (d' : β) :
    (l.map g).getD i d = g (l.getD i d') := by
  rw [List.getD_eq_getElem _ _ (by simpa using hi), List.getD_eq_getElem _ _ hi]
  exact List.getElem_map _

theorem getD_zipWith_of_lt {β γ δ : Type} (f : β → γ → δ) (l : List β)
    (m : List γ) (j : ℕ) (hj1 : j < l.length) (hj2 : j < m.length)
    (d : δ) (d1 : β) (d2 : γ) :
    (List.zipWith f l m).getD j d = f (l.getD j d1) (m.getD j d2) := by
  have hj : j < (List.zipWith f l m).length := by
    rw [List.length_zipWith]
    omega
  rw [List.getD_eq_getElem _ _ hj, List.getD_eq_getElem _ _ hj1,
    List.getD_eq_getElem _ _ hj2]
  simp

theorem length_colMins (A : List (List α)) : (colMins A).length = nCols A := by
  simp [colMins]

theorem length_colMaxs (A : List (List α)) : (colMaxs A).length = nCols A := by
  simp [colMaxs]

theorem getD_colMins (A : List (List α)) (j : ℕ) (hj : j < nCols A) :
    (colMins A).getD j 0 = colMin A j := by
  rw [colMins, getD_map_of_lt (colMin A) (List.range (nCols A)) j (by simpa using hj) 0 0]
  congr 1
  rw [List.getD_eq_getElem _ _ (by simpa using hj)]
  simp

theorem getD_colMaxs (A : List (List α)) (j : ℕ) (hj : j < nCols A) :
    (colMaxs A).getD j 0 = colMax A j := by
  rw [colMaxs, getD_map_of_lt (colMax A) (List.range (nCols A)) j (by simpa using hj) 0 0]
  congr 1
  rw [List.getD_eq_getElem _ _ (by simpa using hj)]
  simp

theorem zipWith_map_same {β γ δ σ : Type} (f : β → γ → δ) (g : σ → β)
    (k : σ → γ) (l : List σ) :
    List.zipWith f (l.map g) (l.map k) = l.map fun x => f (g x) (k x) := by
  induction l with
  | nil => rfl
  | cons x xs ih => simp [ih]

end IndexLemmas

section ClaimTheorems

attribute [local semireducible] Rat.add Rat.sub Rat.mul Rat.inv

variable {α : Type} [LinearOrderedField α]

/-- C1: for every non-empty score vector, `__find_best_alternative` returns
an index in `[0, len(scores))`; the score at that index equals the minimum
of the vector when `is_loss_matrix` is true and the maximum when it is
false; and every earlier position misses that extremum, so on ties the
returned index is the smallest position attaining it. -/
theorem C1_selector_returns_first_extremum (scores : List α) (b : Bool)
    (h : scores ≠ []) :
    find_best_alternative scores b < scores.length ∧
    scores.getD (find_best_alternative scores b) 0 =
      (if b then listMin scores else listMax scores) ∧
    ∀ j < find_best_alternative scores b,
      scores.getD j 0 ≠ scores.getD (find_best_alternative scores b) 0 := by
  cases b with
  | true =>
    simp only [find_best_alternative, if_pos]
    refine ⟨argminList_lt_length scores h, ?_, ?_⟩
    · simpa using getD_argminList_eq_listMin scores h
    · intro j hj
      exact ne_of_gt (getD_argminList_lt scores j hj)
  | false =>
    simp only [find_best_alternative, Bool.false_eq_true, if_false]
    refine ⟨argmaxList_lt_length scores h, ?_, ?_⟩
    · simpa using getD_argmaxList_eq_listMax scores h
    · intro j hj
      exact ne_of_lt (getD_argmaxList_gt scores j hj)

theorem C1_witness :
    (find_best_alternative ([3, 1, 1, 2] : List ℚ) true <
        ([3, 1, 1, 2] : List ℚ).length ∧
      ([3, 1, 1, 2] : List ℚ).getD
          (find_best_alternative ([3, 1, 1, 2] : List ℚ) true) 0 =
        (if true then listMin ([3, 1, 1, 2] : List ℚ)
          else listMax ([3, 1, 1, 2] : List ℚ)) ∧
      ∀ j < find_best_alternative ([3, 1, 1, 2] : List ℚ) true,
        ([3, 1, 1, 2] : List ℚ).getD j 0 ≠
          ([3, 1, 1, 2] : List ℚ).getD
            (find_best_alternative ([3, 1, 1, 2] : List ℚ) true) 0) ∧
    find_best_alternative ([3, 1, 1, 2] : List ℚ) true = 1 :=
  ⟨C1_selector_returns_first_extremum [3, 1, 1, 2] true (by decide), by decide⟩

/-- C2: the Savage criterion is Wald's loss-framing rule (argmin of row
maxima) applied to the regret matrix, in both orientations; the regret
matrix entries are `alternatives(i,j) - column_min(j)` in the loss framing
and `column_max(j) - alternatives(i,j)` in the profit framing, and the
regrets are minimized via minimax regardless of the orientation. -/
theorem C2_savage_is_minimax_regret (A : List (List α)) :
    savage_criterion A true = wald_criterion (savage_regrets A true) true ∧
    savage_criterion A false = wald_criterion (savage_regrets A false) true ∧
    wald_criterion (savage_regrets A true) true =
      argminList ((savage_regrets A true).map listMax) ∧
    wald_criterion (savage_regrets A false) true =
      argminList ((savage_regrets A false).map listMax) ∧
    ∀ i j, i < A.length → j < (A.getD i []).length → j < nCols A →
      ((savage_regrets A true).getD i []).getD j 0 =
        (A.getD i []).getD j 0 - colMin A j ∧
      ((savage_regrets A false).getD i []).getD j 0 =
        colMax A j - (A.getD i []).getD j 0 := by
  refine ⟨rfl, rfl, rfl, rfl, ?_⟩
  intro i j hi hj hjc
  constructor
  · rw [savage_regrets, if_pos rfl,
      getD_map_of_lt (fun row => List.zipWith (fun x m => x - m) row (colMins A)) A i hi [] [],
      getD_zipWith_of_lt (fun x m => x - m) (A.getD i []) (colMins A) j hj
        (by rw [length_colMins]; exact hjc) 0 0 0,
      getD_colMins A j hjc]
  · rw [savage_regrets, if_neg (by simp),
      getD_map_of_lt (fun row => List.zipWith (fun m x => m - x) (colMaxs A) row) A i hi [] [],
      getD_zipWith_of_lt (fun m x => m - x) (colMaxs A) (A.getD i []) j
        (by rw [length_colMaxs]; exact hjc) hj 0 0 0,
      getD_colMaxs A j hjc]

theorem C2_witness :
    (0 < ([[2, 4], [6, 1]] : List (List ℚ)).length ∧
      1 < (([[2, 4], [6, 1]] : List (List ℚ)).getD 0 []).length ∧
      1 < nCols ([[2, 4], [6, 1]] : List (List ℚ))) ∧
    (((savage_regrets ([[2, 4], [6, 1]] : List (List ℚ)) true).getD 0 []).getD 1 0 =
        (([[2, 4], [6, 1]] : List (List ℚ)).getD 0 []).getD 1 0 -
          colMin ([[2, 4], [6, 1]] : List (List ℚ)) 1 ∧
      ((savage_regrets ([[2, 4], [6, 1]] : List (List ℚ)) false).getD 0 []).getD 1 0 =
        colMax ([[2, 4], [6, 1]] : List (List ℚ)) 1 -
          (([[2, 4], [6, 1]] : List (List ℚ)).getD 0 []).getD 1 0) ∧
    savage_regrets ([[2, 4], [6, 1]] : List (List ℚ)) true = [[0, 3], [4, 0]] ∧
    savage_criterion ([[2, 4], [6, 1]] : List (List ℚ)) true = 0 :=
  ⟨⟨by decide, by decide, by decide⟩,
    (C2_savage_is_minimax_regret [[2, 4], [6, 1]]).2.2.2.2 0 1
      (by decide) (by decide) (by decide),
    by decide, by decide⟩

/-- C3: for every input matrix and either orientation, the regret matrix
computed inside the Savage criterion is entrywise nonnegative. -/
theorem C3_regret_matrix_nonneg (A : List (List α)) (b : Bool) :
    ∀ row ∈ savage_regrets A b, ∀ x ∈ row, 0 ≤ x := by
  intro row hrow x hx
  cases b with
  | true =>
    rw [savage_regrets, if_pos rfl] at hrow
    obtain ⟨r, hr, rfl⟩ := List.mem_map.1 hrow
    rw [List.mem_iff_getElem] at hx
    obtain ⟨j, hjlen, rfl⟩ := hx
    have hjr : j < r.length := by
      rw [List.length_zipWith] at hjlen
      omega
    have hjc : j < (colMins A).length := by
      rw [List.length_zipWith] at hjlen
      omega
    simp only [List.getElem_zipWith]
    rw [sub_nonneg]
    have h1 : (colMins A)[j] = colMin A j := by
      simp [colMins]
    have h2 : colMin A j ≤ r.getD j 0 :=
      listMin_le _ _ (List.mem_map.2 ⟨r, hr, rfl⟩)
    rw [List.getD_eq_getElem _ _ hjr] at h2
    rw [h1]
    exact h2
  | false =>
    rw [savage_regrets, if_neg (by simp)] at hrow
    obtain ⟨r, hr, rfl⟩ := List.mem_map.1 hrow
    rw [List.mem_iff_getElem] at hx
    obtain ⟨j, hjlen, rfl⟩ := hx
    have hjr : j < r.length := by
      rw [List.length_zipWith] at hjlen
      omega
    have hjc : j < (colMaxs A).length := by
      rw [List.length_zipWith] at hjlen
      omega
    simp only [List.getElem_zipWith]
    rw [sub_nonneg]
    have h1 : (colMaxs A)[j] = colMax A j := by
      simp [colMaxs]
    have h2 : r.getD j 0 ≤ colMax A j :=
      le_listMax _ _ (List.mem_map.2 ⟨r, hr, rfl⟩)
    rw [List.getD_eq_getElem _ _ hjr] at h2
    rw [h1]
    exact h2

theorem C3_witness :
    [0, 3] ∈ savage_regrets ([[1, 5], [2, 2]] : List (List ℚ)) true ∧
    (3 : ℚ) ∈ ([0, 3] : List ℚ) ∧ (0 : ℚ) ≤ 3 :=
  ⟨by decide, by decide,
    C3_regret_matrix_nonneg [[1, 5], [2, 2]] true [0, 3] (by decide) 3 (by decide)⟩

/-- C4 counterexample: at input `[+inf]` with default 0, the spec-side
substitution (replace only missing entries, NaN, with the default) leaves
a non-finite entry, so the claim as stated demands an error; but the code
substitutes through `np.nan_to_num`, which also turns `+inf` into the
largest finite float, and then returns a probability vector. -/
theorem C4_counterexample :
    ¬ ((raisesError (np_frequencies_to_probabilities [NpFloat.posInf] 0) = true) ↔
      ((([NpFloat.posInf].map (spec_substitute 0)).any fun x => !x.isFinite) = true ∨
        ([NpFloat.posInf].map (spec_substitute 0)).any NpFloat.ltZero = true ∨
        (npSum ([NpFloat.posInf].map (spec_substitute 0))).leZero = true)) := by
  decide

/-- C4 (amended): the normalizer raises if and only if after the
substitution step (which, being `np.nan_to_num`, replaces NaN with the
default and the infinities with the largest finite floats, so no
non-finite entry can survive it) some entry is negative or the sum of
entries is ≤ 0; the error carries the original pre-substitution input;
in every other case it returns each substituted entry divided by the
sum. -/
theorem C4_normalizer_error_condition (f : List NpFloat) (d : ℚ) :
    (raisesError (np_frequencies_to_probabilities f d) = true ↔
      ((f.map (nan_to_num d)).any NpFloat.ltZero = true ∨
        (npSum (f.map (nan_to_num d))).leZero = true)) ∧
    (raisesError (np_frequencies_to_probabilities f d) = true →
      np_frequencies_to_probabilities f d = Except.error f) ∧
    (raisesError (np_frequencies_to_probabilities f d) = false →
      np_frequencies_to_probabilities f d =
        Except.ok ((f.map (nan_to_num d)).map fun p =>
          p.div (npSum (f.map (nan_to_num d))))) :=
  ⟨np_raises_iff f d, np_error_payload f d, np_ok_value f d⟩

theorem C4_witness :
    raisesError (np_frequencies_to_probabilities
      [NpFloat.finite (-1), NpFloat.finite 2, NpFloat.finite 3] 0) = true ∧
    raisesError (np_frequencies_to_probabilities
      [NpFloat.finite 0, NpFloat.finite 0, NpFloat.finite 0] 0) = true ∧
    raisesError (np_frequencies_to_probabilities [NpFloat.nan, NpFloat.nan] 0) = true ∧
    np_frequencies_to_probabilities [NpFloat.nan, NpFloat.nan] 0 =
      Except.error [NpFloat.nan, NpFloat.nan] :=
  ⟨by decide, by decide, by decide,
    (C4_normalizer_error_condition [NpFloat.nan, NpFloat.nan] 0).2.1 (by decide)⟩

/-- C5: for every valid frequencies vector (nonnegative entries, not all
zero), the normalizer succeeds, its output sums to 1, and normalizing any
positive multiple of the vector yields the same probability vector. -/
theorem C5_normalizer_sum_one_scale_invariant (f : List ℚ) (c : ℚ)
    (h0 : ∀ x ∈ f, 0 ≤ x) (h1 : ∃ x ∈ f, x ≠ 0) (hc : 0 < c) :
    ∃ p, frequencies_to_probabilities f = some p ∧ p.sum = 1 ∧
      frequencies_to_probabilities (f.map fun x => c * x) = some p := by
  refine ⟨f.map fun x => x / f.sum,
    frequencies_to_probabilities_eq_some f h0 h1, ?_, ?_⟩
  · exact sum_map_div_self f (ne_of_gt (sum_pos_of_valid f h0 h1))
  · rw [frequencies_to_probabilities_scale f c hc]
    exact frequencies_to_probabilities_eq_some f h0 h1

theorem C5_witness :
    (∀ x ∈ ([2, 4, 4] : List ℚ), 0 ≤ x) ∧ (∃ x ∈ ([2, 4, 4] : List ℚ), x ≠ 0) ∧
    (0 < (1 / 2 : ℚ)) ∧
    (([2, 4, 4] : List ℚ).map fun x => (1 / 2 : ℚ) * x) = [1, 2, 2] ∧
    (∃ p, frequencies_to_probabilities ([2, 4, 4] : List ℚ) = some p ∧ p.sum = 1 ∧
      frequencies_to_probabilities (([2, 4, 4] : List ℚ).map fun x => (1 / 2 : ℚ) * x) =
        some p) ∧
    frequencies_to_probabilities ([2, 4, 4] : List ℚ) = some [1 / 5, 2 / 5, 2 / 5] :=
  ⟨by decide, by decide, by decide, by decide,
    C5_normalizer_sum_one_scale_invariant [2, 4, 4] (1 / 2) (by decide) (by decide)
      (by decide),
    by decide⟩

/-- C10: the substitution step of the normalizer never leaves a NaN, so
the NaN disjunct of the error check is unreachable and the normalizer
raises only because some substituted entry is negative or the substituted
sum is ≤ 0; in particular on the input `[+inf]` the substitution yields
the (finite) largest float and the normalizer returns a probability
vector instead of raising. -/
theorem C10_nan_disjunct_unreachable :
    (∀ (f : List NpFloat) (d : ℚ), (f.map (nan_to_num d)).any NpFloat.isnan = false) ∧
    (∀ (f : List NpFloat) (d : ℚ),
      raisesError (np_frequencies_to_probabilities f d) = true →
        (f.map (nan_to_num d)).any NpFloat.ltZero = true ∨
        (npSum (f.map (nan_to_num d))).leZero = true) ∧
    nan_to_num 0 NpFloat.posInf = NpFloat.finite maxFloat ∧
    (NpFloat.finite maxFloat).isFinite = true ∧
    np_frequencies_to_probabilities [NpFloat.posInf] 0 = Except.ok [NpFloat.finite 1] :=
  ⟨map_nan_to_num_any_isnan, fun f d h => (np_raises_iff f d).1 h, rfl, rfl, by decide⟩

theorem C10_witness :
    raisesError (np_frequencies_to_probabilities
      [NpFloat.finite (-2), NpFloat.finite 1] 0) = true ∧
    (([NpFloat.finite (-2), NpFloat.finite 1].map (nan_to_num 0)).any NpFloat.ltZero = true ∨
      (npSum ([NpFloat.finite (-2), NpFloat.finite 1].map (nan_to_num 0))).leZero = true) :=
  ⟨by decide,
    C10_nan_disjunct_unreachable.2.1 [NpFloat.finite (-2), NpFloat.finite 1] 0 (by decide)⟩

/-- C6: the standard-deviation criterion returns the first-occurrence
argmin of the variance scores E[X²] − E[X]², computed with the normalized
probability vector; it takes no orientation parameter. -/
theorem C6_std_criterion_argmin_variance (A : List (List ℚ)) (f p : List ℚ)
    (h : frequencies_to_probabilities f = some p) :
    std_criterion A f = some (argminList (A.map fun row =>
      dot (row.map fun x => x ^ 2) p - (dot row p) ^ 2)) := by
  rw [std_criterion, h, Option.map_some']

theorem C6_witness :
    frequencies_to_probabilities ([1 / 2, 1 / 2] : List ℚ) = some [1 / 2, 1 / 2] ∧
    (([[1, 3], [2, 2]] : List (List ℚ)).map fun row =>
      dot (row.map fun x => x ^ 2) [1 / 2, 1 / 2] - (dot row [1 / 2, 1 / 2]) ^ 2) =
        [1, 0] ∧
    std_criterion ([[1, 3], [2, 2]] : List (List ℚ)) [1 / 2, 1 / 2] = some 1 :=
  ⟨by decide, by decide,
    (C6_std_criterion_argmin_variance [[1, 3], [2, 2]] [1 / 2, 1 / 2] [1 / 2, 1 / 2]
      (by decide)).trans (by decide)⟩

/-- C7: the linear-combination (mean, std) criterion uses beta = 1 − alpha
when beta is not supplied, and returns the argmin of alpha·E + beta·std in
the loss framing and the argmax of alpha·E − beta·std in the profit
framing, with expectation and standard deviation computed from the
normalized probability vector. -/
theorem C7_linear_combination_default_beta (A : List (List ℝ)) (f p : List ℝ)
    (a : ℝ) (h : frequencies_to_probabilities f = some p) :
    linear_combination_mean_std_criterion Real.sqrt A f true a none =
      some (argminList (A.map fun row =>
        a * dot row p + (1 - a) * Real.sqrt
          (dot (row.map fun x => x ^ 2) p - (dot row p) ^ 2))) ∧
    linear_combination_mean_std_criterion Real.sqrt A f false a none =
      some (argmaxList (A.map fun row =>
        a * dot row p - (1 - a) * Real.sqrt
          (dot (row.map fun x => x ^ 2) p - (dot row p) ^ 2))) := by
  constructor <;>
    simp [linear_combination_mean_std_criterion, h]

theorem C7_witness :
    frequencies_to_probabilities ([1, 1] : List ℝ) = some [1 / 2, 1 / 2] ∧
    (linear_combination_mean_std_criterion Real.sqrt ([[1, 3], [2, 2]] : List (List ℝ))
        [1, 1] true (1 / 2) none =
      some (argminList (([[1, 3], [2, 2]] : List (List ℝ)).map fun row =>
        (1 / 2 : ℝ) * dot row [1 / 2, 1 / 2] + (1 - 1 / 2) * Real.sqrt
          (dot (row.map fun x => x ^ 2) [1 / 2, 1 / 2] -
            (dot row [1 / 2, 1 / 2]) ^ 2))) ∧
      linear_combination_mean_std_criterion Real.sqrt ([[1, 3], [2, 2]] : List (List ℝ))
        [1, 1] false (1 / 2) none =
      some (argmaxList (([[1, 3], [2, 2]] : List (List ℝ)).map fun row =>
        (1 / 2 : ℝ) * dot row [1 / 2, 1 / 2] - (1 - 1 / 2) * Real.sqrt
          (dot (row.map fun x => x ^ 2) [1 / 2, 1 / 2] -
            (dot row [1 / 2, 1 / 2]) ^ 2)))) := by
  have hnorm : frequencies_to_probabilities ([1, 1] : List ℝ) = some [1 / 2, 1 / 2] := by
    rw [frequencies_to_probabilities, if_neg]
    · norm_num [List.sum_cons, List.sum_nil]
    · push_neg
      refine ⟨?_, ?_⟩
      · intro x hx
        rcases List.mem_cons.1 hx with rfl | hx'
        · norm_num
        · rcases List.mem_cons.1 hx' with rfl | hx''
          · norm_num
          · simp at hx''
      · norm_num [List.sum_cons, List.sum_nil]
  exact ⟨hnorm,
    C7_linear_combination_default_beta [[1, 3], [2, 2]] [1, 1] [1 / 2, 1 / 2] (1 / 2) hnorm⟩

/-- C8: the Hurwicz criterion scores each alternative by
(1 − alpha)·(row max) + alpha·(row min) and selects through the generic
selector with the given orientation; on [[10,0],[5,5]] with profit
framing and alpha = 1/2 the scores are [5,5] and the tie resolves to
index 0. -/
theorem C8_hurwitz_scores (A : List (List ℚ)) (a : ℚ) (b : Bool) :
    hurwitz_criterion A b a = find_best_alternative
      (A.map fun row => (1 - a) * listMax row + a * listMin row) b ∧
    (([[10, 0], [5, 5]] : List (List ℚ)).map fun row =>
      (1 - (1 / 2 : ℚ)) * listMax row + (1 / 2 : ℚ) * listMin row) = [5, 5] ∧
    hurwitz_criterion ([[10, 0], [5, 5]] : List (List ℚ)) false (1 / 2) = 0 := by
  refine ⟨?_, by decide, by decide⟩
  have hdef : hurwitz_criterion A b a = find_best_alternative
      (List.zipWith (fun u w => (1 - a) * u + a * w) (A.map listMax) (A.map listMin)) b :=
    rfl
  rw [hdef, zipWith_map_same]

/-- C9: scaling the frequencies by any positive constant leaves the
choice of both the coefficient-of-variation criterion and the
linear-combination (mean, std) criterion unchanged, since normalization
happens internally and only relative weights matter. -/
theorem C9_criteria_scale_invariant (A : List (List ℝ)) (f : List ℝ) (c : ℝ)
    (hc : 0 < c) (h0 : ∀ x ∈ f, 0 ≤ x) (h1 : ∃ x ∈ f, x ≠ 0)
    (b : Bool) (a : ℝ) (bet : Option ℝ) :
    variation_coefficient_criterion Real.sqrt A (f.map fun x => c * x) =
      variation_coefficient_criterion Real.sqrt A f ∧
    linear_combination_mean_std_criterion Real.sqrt A (f.map fun x => c * x) b a bet =
      linear_combination_mean_std_criterion Real.sqrt A f b a bet := by
  constructor
  · rw [variation_coefficient_criterion, variation_coefficient_criterion,
      frequencies_to_probabilities_scale f c hc]
  · rw [linear_combination_mean_std_criterion, linear_combination_mean_std_criterion,
      frequencies_to_probabilities_scale f c hc]

theorem C9_witness :
    (0 < (2 : ℝ)) ∧ (∀ x ∈ ([1, 1] : List ℝ), 0 ≤ x) ∧
    (∃ x ∈ ([1, 1] : List ℝ), x ≠ 0) ∧
    (variation_coefficient_criterion Real.sqrt ([[1, 2], [3, 4]] : List (List ℝ))
        (([1, 1] : List ℝ).map fun x => (2 : ℝ) * x) =
      variation_coefficient_criterion Real.sqrt [[1, 2], [3, 4]] [1, 1] ∧
      linear_combination_mean_std_criterion Real.sqrt ([[1, 2], [3, 4]] : List (List ℝ))
          (([1, 1] : List ℝ).map fun x => (2 : ℝ) * x) true (1 / 2) none =
        linear_combination_mean_std_criterion Real.sqrt [[1, 2], [3, 4]] [1, 1]
          true (1 / 2) none) := by
  have h0 : ∀ x ∈ ([1, 1] : List ℝ), 0 ≤ x := by
    intro x hx
    rcases List.mem_cons.1 hx with rfl | hx'
    · norm_num
    · rcases List.mem_cons.1 hx' with rfl | hx''
      · norm_num
      · simp at hx''
  have h1 : ∃ x ∈ ([1, 1] : List ℝ), x ≠ 0 := ⟨1, by simp, one_ne_zero⟩
  exact ⟨by norm_num, h0, h1,
    C9_criteria_scale_invariant [[1, 2], [3, 4]] [1, 1] 2 (by norm_num) h0 h1
      true (1 / 2) none⟩

end ClaimTheorems

end DecisionMaking
